import Mathlib

/-!
Verification of the document-ingestion pipeline (ingest.py).

The pipeline splits extracted text into overlapping chunks, computes one
embedding per chunk via an external service, and stores one record per
(chunk, embedding) pair.  Text is modelled as `List Char`, Python dicts as
association lists, and each external collaborator (format parser, embedding
service, store insert) as an explicit function parameter returning `Except`.
-/

namespace Ingest

/-! ### Definitions: the embedded program -/

/-- The whitespace characters Python's str.strip / str.split recognise. -/
def isSpace (c : Char) : Bool :=
  c = ' ' || c = '\t' || c = '\n' || c = '\r' || c = '\x0b' || c = '\x0c'

/-- Python str.strip: remove leading and trailing whitespace. -/
def strip (l : List Char) : List Char :=
  ((l.dropWhile isSpace).reverse.dropWhile isSpace).reverse

/-- Split a character list at every character satisfying `p`, keeping empty
fields, as Python's str.split(sep) does for a one-character separator. -/
def splitOnPred (p : Char → Bool) : List Char → List (List Char)
  | [] => [[]]
  | c :: cs =>
    match splitOnPred p cs with
    | [] => [[]]
    | r :: rs => if p c then [] :: r :: rs else (c :: r) :: rs

/-- Python text.split(sep) for a one-character separator. -/
def splitOnChar (sep : Char) (l : List Char) : List (List Char) :=
  splitOnPred (fun c => c == sep) l

/-- Python str.split() with no argument: whitespace fields, no empties. -/
def pySplitWs (l : List Char) : List (List Char) :=
  (splitOnPred isSpace l).filter (fun w => w ≠ [])

/-- Python sep.join(ws). -/
def sepJoin (sep : List Char) : List (List Char) → List Char
  | [] => []
  | [w] => w
  | w :: ws => w ++ sep ++ sepJoin sep ws

/-- A metadata value: the source stores strings and integers. -/
inductive MVal where
  | str : List Char → MVal
  | nat : Nat → MVal
deriving DecidableEq, Repr

/-- A Python dict of metadata, as an association list in insertion order. -/
abbrev Meta := List (String × MVal)

/-- Python dict update {**m, k: v}: replace in place when the key is
present, append at the end otherwise. -/
def metaSet (m : Meta) (k : String) (v : MVal) : Meta :=
  if m.any (fun kv => kv.1 == k) then
    m.map (fun kv => if kv.1 = k then (k, v) else kv)
  else m ++ [(k, v)]

/-- Python dict lookup m.get(k): the value stored under k, if any. -/
def dictGet (m : Meta) (k : String) : Option MVal :=
  match m with
  | [] => none
  | kv :: rest => if kv.1 = k then some kv.2 else dictGet rest k

/-- A chunk as built by create_chunks: content plus per-chunk metadata. -/
structure Chunk where
  content : List Char
  metadata : Meta
deriving DecidableEq, Repr

/-- DocumentIngestor.chunk_size (set in __init__). -/
def chunk_size : Nat := 1000

/-- DocumentIngestor.batch_size (set in __init__). -/
def batch_size : Nat := 10

/-- The two-character delimiter '. ' that create_chunks re-joins with. -/
def dotSep : List Char := ['.', ' ']

/-- The sentence units of the input:
[s.strip() for s in text.split('.') if s.strip()]. -/
def sentenceUnits (text : List Char) : List (List Char) :=
  ((splitOnChar '.' text).map strip).filter (fun s => s ≠ [])

/-- words[-20:] of current_chunk.split(): the last at-most-20
whitespace-delimited words. -/
def overlapWords (l : List Char) : List (List Char) :=
  let words := pySplitWs l
  words.drop (words.length - 20)

/-- ' '.join(ws). -/
def spaceJoin (ws : List (List Char)) : List Char := sepJoin [' '] ws

/-- The loop state of create_chunks: emitted chunks, the in-progress buffer,
and the separately tracked buffer length. -/
structure CState where
  chunks : List Chunk
  current_chunk : List Char
  current_length : Nat
deriving Repr

/-- One iteration of the create_chunks loop body (ingest.py lines 69-86):
when adding the sentence would overflow a non-empty buffer, close the buffer
as a chunk and seed a new buffer with the last-20-words overlap; otherwise
append the sentence to the buffer, '. '-separated. -/
def chunkStep (meta : Meta) (st : CState) (sentence : List Char) : CState :=
  if st.current_length + sentence.length > chunk_size ∧ st.current_chunk ≠ [] then
    ⟨st.chunks ++
       [⟨strip st.current_chunk, metaSet meta "chunk_index" (MVal.nat st.chunks.length)⟩],
     spaceJoin (overlapWords st.current_chunk) ++ dotSep ++ sentence,
     (spaceJoin (overlapWords st.current_chunk) ++ dotSep ++ sentence).length⟩
  else
    ⟨st.chunks,
     st.current_chunk ++ (if st.current_chunk ≠ [] then dotSep else []) ++ sentence,
     (st.current_chunk ++ (if st.current_chunk ≠ [] then dotSep else []) ++ sentence).length⟩

/-- The final flush of create_chunks (ingest.py lines 89-93): emit the
remaining buffer as a last chunk when its stripped content is non-empty. -/
def finishChunks (meta : Meta) (st : CState) : List Chunk :=
  if strip st.current_chunk ≠ [] then
    st.chunks ++
      [⟨strip st.current_chunk, metaSet meta "chunk_index" (MVal.nat st.chunks.length)⟩]
  else st.chunks

/-- DocumentIngestor.create_chunks (ingest.py lines 62-95). -/
def create_chunks (text : List Char) (meta : Meta) : List Chunk :=
  finishChunks meta ((sentenceUnits text).foldl (chunkStep meta) ⟨[], [], 0⟩)

/-- The first character (if any) is not whitespace. -/
def headNotSpace : List Char → Prop
  | [] => True
  | c :: _ => isSpace c = false

/-- No surrounding whitespace: both ends fail `isSpace`. -/
def CleanL (l : List Char) : Prop := headNotSpace l ∧ headNotSpace l.reverse

/-- A word produced by Python's whitespace split: non-empty, no whitespace. -/
def WordShape (w : List Char) : Prop := w ≠ [] ∧ ∀ c ∈ w, isSpace c = false

/-- The overlap prefix chunk i's buffer was seeded with: empty for chunk 0,
else the space-joined last at-most-20 words of chunk i-1, then '. '. -/
def ovPre (cs : List Chunk) : Nat → List Char
  | 0 => []
  | i + 1 =>
    match cs[i]? with
    | some c => spaceJoin (overlapWords c.content) ++ dotSep
    | none => []

/-- A freshly seeded buffer: a bare sentence unit, or an overlap seed (at
most 20 whitespace-free words joined by spaces, then '. ') and one unit. -/
def SeedShape (S : List (List Char)) (l : List Char) : Prop :=
  l ∈ S ∨ ∃ ws s, s ∈ S ∧ ws ≠ [] ∧ ws.length ≤ 20 ∧ (∀ w ∈ ws, WordShape w) ∧
    l = spaceJoin ws ++ dotSep ++ s

/-- The chunker's soft size bound: chunk_size plus the uncounted '. ', or a
freshly seeded buffer that is emitted whole. -/
def SizeOk (S : List (List Char)) (l : List Char) : Prop :=
  l.length ≤ chunk_size + 2 ∨ SeedShape S l

/-- The loop invariant of create_chunks, over the processed prefix `done` of
the sentence-unit list `S`. -/
structure ChunkInv (meta : Meta) (S done : List (List Char)) (st : CState) : Prop where
  len_eq : st.current_length = st.current_chunk.length
  cur_clean : CleanL st.current_chunk
  idx : ∀ i c, st.chunks[i]? = some c →
    c.metadata = metaSet meta "chunk_index" (MVal.nat i)
  chunks_ok : ∀ c ∈ st.chunks, c.content ≠ [] ∧ CleanL c.content ∧ SizeOk S c.content
  cur_size : SizeOk S st.current_chunk
  recon : ∃ (segs : List (List (List Char))) (curSeg : List (List Char)),
    segs.length = st.chunks.length ∧
    (∀ seg ∈ segs, seg ≠ []) ∧
    (∀ u ∈ curSeg, u ≠ []) ∧
    segs.flatten ++ curSeg = done ∧
    (∀ i c seg, st.chunks[i]? = some c → segs[i]? = some seg →
      c.content = ovPre st.chunks i ++ sepJoin dotSep seg) ∧
    ((curSeg = [] ∧ st.current_chunk = [] ∧ st.chunks = []) ∨
     (curSeg ≠ [] ∧
       st.current_chunk = ovPre st.chunks st.chunks.length ++ sepJoin dotSep curSeg))

/-- What holds of the full output of create_chunks on sentence units `S`. -/
structure OutSpec (meta : Meta) (S : List (List Char)) (cs : List Chunk) : Prop where
  idx : ∀ i c, cs[i]? = some c → c.metadata = metaSet meta "chunk_index" (MVal.nat i)
  nonempty_clean : ∀ c ∈ cs, c.content ≠ [] ∧ strip c.content = c.content
  size : ∀ c ∈ cs, SizeOk S c.content
  recon : ∃ segs : List (List (List Char)),
    segs.length = cs.length ∧ (∀ seg ∈ segs, seg ≠ []) ∧ segs.flatten = S ∧
    ∀ i c seg, cs[i]? = some c → segs[i]? = some seg →
      c.content = ovPre cs i ++ sepJoin dotSep seg

/-- The text aaa…a.bbb…b (500 a's, a period, 500 b's) for the C1 counterexample. -/
def c1Text : List Char := List.replicate 500 'a' ++ '.' :: List.replicate 500 'b'

/-- The single chunk the chunker emits for `c1Text`: both sentences rejoined. -/
def c1Content : List Char := List.replicate 500 'a' ++ '.' :: ' ' :: List.replicate 500 'b'

/-- The text aa…a.bb…b (600 a's, a period, 600 b's): it yields two chunks. -/
def c3wText : List Char := List.replicate 600 'a' ++ '.' :: List.replicate 600 'b'

/-- The first chunk produced for `c3wText`. -/
def c3wChunk0 : Chunk := ⟨List.replicate 600 'a', [("chunk_index", MVal.nat 0)]⟩

/-- The second chunk produced for `c3wText`: overlap seed plus second unit. -/
def c3wChunk1 : Chunk :=
  ⟨List.replicate 600 'a' ++ '.' :: ' ' :: List.replicate 600 'b',
   [("chunk_index", MVal.nat 1)]⟩

/-- The 999-character text aa…a.aa…a.aa…a.aa…a.bbb (four 248-character
sentences and one 3-character sentence): shorter than chunk_size, yet the
'. '-rejoins inflate the buffer past chunk_size and the chunker splits. -/
def c7Text : List Char :=
  List.replicate 248 'a' ++ '.' :: (List.replicate 248 'a'
    ++ '.' :: (List.replicate 248 'a' ++ '.' :: (List.replicate 248 'a'
      ++ '.' :: ['b', 'b', 'b'])))

/-- An embedding vector; its numeric contents are opaque to the pipeline
(floating-point values are never inspected, only carried). -/
abbrev Emb := List Int

/-- One element of the embedding response's data array. -/
structure EmbItem where
  embedding : Emb
deriving DecidableEq, Repr

/-- The external embedding service (openai.Embedding.create): the
response's data array, or a raised error. -/
abbrev EmbService := List (List Char) → Except String (List EmbItem)

/-- DocumentIngestor.generate_embeddings (ingest.py lines 97-107): one
service call, the item embeddings in response order; a service error is
logged and re-raised. -/
def generate_embeddings (service : EmbService) (texts : List (List Char)) :
    Except String (List Emb) :=
  match service texts with
  | Except.ok data => Except.ok (data.map EmbItem.embedding)
  | Except.error e => Except.error e

/-- A record as built for the store insert (ingest.py lines 115-121). -/
structure Record where
  content : List Char
  metadata : Meta
  chunk_index : Option MVal
  embedding : Emb
  created_at : List Char
deriving DecidableEq, Repr

/-- The records store_chunks builds: one per zipped (chunk, embedding)
pair, with chunk_index dropped from the nested metadata and promoted to a
top-level field (ingest.py lines 112-121). -/
def buildRecords (now : List Char) (chunks : List Chunk) (embeddings : List Emb) :
    List Record :=
  (chunks.zip embeddings).map fun ce =>
    { content := ce.1.content
      metadata := ce.1.metadata.filter (fun kv => kv.1 != "chunk_index")
      chunk_index := dictGet ce.1.metadata "chunk_index"
      embedding := ce.2
      created_at := now }

/-- The external store's insert API (supabase …insert(…).execute()). -/
abbrev InsertApi := List Record → Except String Unit

/-- An observable network effect of the pipeline. -/
inductive Event where
  | embedCall (texts : List (List Char))
  | insertCall (records : List Record)
deriving DecidableEq, Repr

/-- DocumentIngestor.store_chunks (ingest.py lines 109-128): build the
records, submit the whole batch in one insert (the recorded event), return
the stored count or re-raise the store's error. -/
def store_chunks (insert : InsertApi) (now : List Char) (chunks : List Chunk)
    (embeddings : List Emb) : Except String Nat × List Event :=
  (match insert (buildRecords now chunks embeddings) with
   | Except.ok _ => Except.ok (buildRecords now chunks embeddings).length
   | Except.error e => Except.error e,
   [Event.insertCall (buildRecords now chunks embeddings)])

/-- The pipeline's external collaborators and ambient timestamp. -/
structure Deps where
  embed : EmbService
  insertApi : InsertApi
  now : List Char

/-- A file as the pipeline sees it: its path pieces, its suffix, and the
outcome of the format-specific parser call on it (plain-text read, PDF,
Word or OCR extraction are all external; each is modelled by the one
`raw` outcome: extracted text, or a raised error). -/
structure PyFile where
  path : List Char
  name : List Char
  dir : List Char
  suffix : String
  raw : Except String (List Char)

/-- file_path.suffix.lower(). -/
def lowerStr (s : String) : String := String.mk (s.data.map Char.toLower)

/-- The extensions extract_text dispatches a parser for (lines 43-54). -/
def parserExts : List String :=
  [".pdf", ".docx", ".png", ".jpg", ".jpeg", ".tiff", ".txt", ".md"]

/-- DocumentIngestor.extract_text (ingest.py lines 39-60): dispatch on the
lower-cased suffix to the format parser; unsupported types and any parser
exception are caught and give the empty string. -/
def extract_text (f : PyFile) : List Char :=
  if lowerStr f.suffix ∈ parserExts then
    match f.raw with
    | Except.ok t => t
    | Except.error _ => []
  else []

/-- The metadata dict built in process_file (ingest.py lines 143-148). -/
def fileMetadata (f : PyFile) (content : List Char) : Meta :=
  [("source", MVal.str f.path), ("filename", MVal.str f.name),
   ("directory", MVal.str f.dir), ("file_size", MVal.nat content.length)]

/-- The batch loop of process_file (ingest.py lines 157-168): embed and
store batch_size chunks at a time, strictly in order; the first error stops
the loop and is re-raised to the per-file handler. -/
def processBatches (deps : Deps) : List Chunk → Except String Unit × List Event
  | [] => (Except.ok (), [])
  | c :: cs =>
    match generate_embeddings deps.embed
        (((c :: cs).take batch_size).map Chunk.content) with
    | Except.error e =>
      (Except.error e,
       [Event.embedCall (((c :: cs).take batch_size).map Chunk.content)])
    | Except.ok embs =>
      match store_chunks deps.insertApi deps.now ((c :: cs).take batch_size) embs with
      | (Except.error e, ev2) =>
        (Except.error e,
         Event.embedCall (((c :: cs).take batch_size).map Chunk.content) :: ev2)
      | (Except.ok _, ev2) =>
        match processBatches deps ((c :: cs).drop batch_size) with
        | (r, ev3) =>
          (r, Event.embedCall (((c :: cs).take batch_size).map Chunk.content)
                :: (ev2 ++ ev3))
termination_by l => l.length
decreasing_by
  simp only [List.length_drop, List.length_cons, batch_size]
  omega

/-- DocumentIngestor.process_file (ingest.py lines 130-175): extract, fail
on blank content, chunk, fail on no chunks, else embed and store in
batches; any raised error is caught and the file reports failure. -/
def process_file (deps : Deps) (f : PyFile) : Bool × List Event :=
  if strip (extract_text f) = [] then (false, [])
  else
    match create_chunks (extract_text f) (fileMetadata f (extract_text f)) with
    | [] => (false, [])
    | c :: cs =>
      match processBatches deps (c :: cs) with
      | (Except.ok _, evs) => (true, evs)
      | (Except.error _, evs) => (false, evs)

/-- One iteration of the counting loop (ingest.py lines 196-200). -/
def runStep (deps : Deps) (acc : Nat × Nat × List Event) (f : PyFile) :
    Nat × Nat × List Event :=
  match process_file deps f with
  | (true, evs) => (acc.1 + 1, acc.2.1, acc.2.2 ++ evs)
  | (false, evs) => (acc.1, acc.2.1 + 1, acc.2.2 ++ evs)

/-- The per-file loop of process_directory: the processed and failed counts
and the network events issued, over a given file list. -/
def processFiles (deps : Deps) (files : List PyFile) : Nat × Nat × List Event :=
  files.foldl (runStep deps) (0, 0, [])

/-- The supported extensions of the traversal (ingest.py line 185). -/
def supported_extensions : List String :=
  [".txt", ".md", ".pdf", ".docx", ".png", ".jpg", ".jpeg", ".tiff"]

/-- The traversal of process_directory (ingest.py lines 185-189): for each
supported extension in turn, the directory's files with that suffix. -/
def collectFiles (entries : List PyFile) : List PyFile :=
  supported_extensions.foldl
    (fun acc e => acc ++ entries.filter (fun f => f.suffix == e)) []

/-- DocumentIngestor.process_directory (ingest.py lines 177-206) on an
existing directory holding `entries`: run every collected file, counting
successes and failures. -/
def process_directory (deps : Deps) (entries : List PyFile) :
    Nat × Nat × List Event :=
  processFiles deps (collectFiles entries)

/-- The dependencies used by the concrete pipeline witnesses: an embedding
service returning no items and an always-accepting store. -/
def deps0 : Deps := ⟨fun _ => Except.ok [], fun _ => Except.ok (), []⟩

/-- A .txt file whose read raises. -/
def badFile : PyFile := ⟨[], [], [], ".txt", Except.error "boom"⟩

/-- A directory entry with an unsupported extension. -/
def exeFile : PyFile := ⟨[], [], [], ".exe", Except.ok ['x']⟩

/-! ### Theorems -/

theorem cleanL_nil : CleanL ([] : List Char) := ⟨trivial, trivial⟩

theorem headNotSpace_of_head {xs ys : List Char} (h : xs ≠ []) (hx : headNotSpace xs) :
    headNotSpace (xs ++ ys) := by
  cases xs with
  | nil => exact absurd rfl h
  | cons c cs => exact hx

theorem headNotSpace_append_left {xs ys : List Char} (h : xs ≠ []) :
    headNotSpace (xs ++ ys) ↔ headNotSpace xs := by
  cases xs with
  | nil => exact absurd rfl h
  | cons c cs => exact Iff.rfl

theorem dropWhile_headNotSpace (l : List Char) : headNotSpace (l.dropWhile isSpace) := by
  induction l with
  | nil => trivial
  | cons c cs ih =>
    by_cases h : isSpace c
    · simpa [List.dropWhile_cons, h] using ih
    · simp only [List.dropWhile_cons, if_neg h]
      exact Bool.eq_false_iff.mpr h

theorem dropWhile_reverse_headNotSpace {l : List Char}
    (h : headNotSpace l.reverse) : headNotSpace (l.dropWhile isSpace).reverse := by
  induction l with
  | nil => trivial
  | cons c cs ih =>
    by_cases hc : isSpace c
    · rw [List.dropWhile_cons, if_pos hc]
      apply ih
      rcases eq_or_ne cs [] with h0 | h0
      · subst h0; trivial
      · have hrev : cs.reverse ≠ [] := by simpa using h0
        rw [List.reverse_cons] at h
        exact (headNotSpace_append_left hrev).mp h
    · rwa [List.dropWhile_cons, if_neg hc]

theorem strip_clean (l : List Char) : CleanL (strip l) := by
  constructor
  · have h1 : headNotSpace ((l.dropWhile isSpace).reverse).reverse := by
      rw [List.reverse_reverse]; exact dropWhile_headNotSpace l
    exact dropWhile_reverse_headNotSpace h1
  · unfold strip
    rw [List.reverse_reverse]
    exact dropWhile_headNotSpace _

theorem dropWhile_eq_self_of_headNotSpace {l : List Char} (h : headNotSpace l) :
    l.dropWhile isSpace = l := by
  cases l with
  | nil => rfl
  | cons c cs =>
    have hc : isSpace c = false := h
    simp [List.dropWhile_cons, hc]

theorem strip_nil : strip [] = [] := rfl

theorem strip_eq_self_of_clean {l : List Char} (h : CleanL l) : strip l = l := by
  obtain ⟨h1, h2⟩ := h
  unfold strip
  rw [dropWhile_eq_self_of_headNotSpace h1, dropWhile_eq_self_of_headNotSpace h2,
    List.reverse_reverse]

theorem sentenceUnits_mem {text s : List Char} (h : s ∈ sentenceUnits text) :
    s ≠ [] ∧ CleanL s := by
  unfold sentenceUnits at h
  rw [List.mem_filter] at h
  obtain ⟨hmem, hne⟩ := h
  rw [List.mem_map] at hmem
  obtain ⟨raw, _, rfl⟩ := hmem
  exact ⟨by simpa using hne, strip_clean raw⟩

theorem splitOnPred_ne_nil (p : Char → Bool) (l : List Char) : splitOnPred p l ≠ [] := by
  cases l with
  | nil => simp [splitOnPred]
  | cons c cs =>
    unfold splitOnPred
    rcases he : splitOnPred p cs with _ | ⟨r, rs⟩
    · simp
    · by_cases hc : p c <;> simp [hc]

theorem splitOnPred_cons_pos {p : Char → Bool} {c : Char} {cs r : List Char}
    {rs : List (List Char)} (h : p c = true) (he : splitOnPred p cs = r :: rs) :
    splitOnPred p (c :: cs) = [] :: r :: rs := by
  unfold splitOnPred
  rw [he]
  simp [h]

theorem splitOnPred_cons_neg {p : Char → Bool} {c : Char} {cs r : List Char}
    {rs : List (List Char)} (h : p c = false) (he : splitOnPred p cs = r :: rs) :
    splitOnPred p (c :: cs) = (c :: r) :: rs := by
  unfold splitOnPred
  rw [he]
  simp [h]

theorem splitOnPred_mem_chars {p : Char → Bool} :
    ∀ {l w : List Char}, w ∈ splitOnPred p l → ∀ c ∈ w, p c = false := by
  intro l
  induction l with
  | nil =>
    intro w hw c hc
    simp [splitOnPred] at hw
    subst hw
    simp at hc
  | cons a as ih =>
    intro w hw c hc
    obtain ⟨r, rs, he⟩ := List.exists_cons_of_ne_nil (splitOnPred_ne_nil p as)
    by_cases ha : p a
    · rw [splitOnPred_cons_pos ha he] at hw
      rcases List.mem_cons.mp hw with hw | hw
      · subst hw; simp at hc
      · exact ih (he ▸ hw) c hc
    · have ha' : p a = false := Bool.eq_false_iff.mpr ha
      rw [splitOnPred_cons_neg ha' he] at hw
      rcases List.mem_cons.mp hw with hw | hw
      · subst hw
        rcases List.mem_cons.mp hc with rfl | hc
        · exact ha'
        · exact ih (he ▸ List.mem_cons_self r rs) c hc
      · exact ih (he ▸ List.mem_cons_of_mem r hw) c hc

theorem pySplitWs_wordShape {l w : List Char} (h : w ∈ pySplitWs l) : WordShape w := by
  unfold pySplitWs at h
  rw [List.mem_filter] at h
  exact ⟨by simpa using h.2, fun c hc => splitOnPred_mem_chars h.1 c hc⟩

theorem wordShape_headNotSpace {w : List Char} (h : WordShape w) : headNotSpace w := by
  cases w with
  | nil => trivial
  | cons c cs => exact h.2 c (List.mem_cons_self _ _)

theorem pySplitWs_ne_nil {l : List Char} (hne : l ≠ []) (hh : headNotSpace l) :
    pySplitWs l ≠ [] := by
  cases l with
  | nil => exact absurd rfl hne
  | cons c cs =>
    have hc : isSpace c = false := hh
    obtain ⟨r, rs, he⟩ := List.exists_cons_of_ne_nil (splitOnPred_ne_nil isSpace cs)
    unfold pySplitWs
    rw [splitOnPred_cons_neg hc he]
    simp [List.filter_cons]

theorem overlapWords_spec {l : List Char} (hne : l ≠ []) (hh : headNotSpace l) :
    overlapWords l ≠ [] ∧ (overlapWords l).length ≤ 20 ∧
      ∀ w ∈ overlapWords l, WordShape w := by
  have hws : pySplitWs l ≠ [] := pySplitWs_ne_nil hne hh
  have hpos : 0 < (pySplitWs l).length := List.length_pos.mpr hws
  refine ⟨?_, ?_, ?_⟩
  · unfold overlapWords
    rw [Ne, List.drop_eq_nil_iff]
    omega
  · unfold overlapWords
    rw [List.length_drop]
    omega
  · intro w hw
    exact pySplitWs_wordShape (List.mem_of_mem_drop hw)

theorem sepJoin_cons_cons (sep w x : List Char) (xs : List (List Char)) :
    sepJoin sep (w :: x :: xs) = w ++ sep ++ sepJoin sep (x :: xs) := rfl

theorem sepJoin_append {sep : List Char} {xs ys : List (List Char)}
    (hx : xs ≠ []) (hy : ys ≠ []) :
    sepJoin sep (xs ++ ys) = sepJoin sep xs ++ sep ++ sepJoin sep ys := by
  induction xs with
  | nil => exact absurd rfl hx
  | cons a as ih =>
    cases as with
    | nil =>
      cases ys with
      | nil => exact absurd rfl hy
      | cons b bs => simp [sepJoin]
    | cons a2 as2 =>
      rw [List.cons_append, List.cons_append, sepJoin_cons_cons,
        ← List.cons_append, ih (by simp), sepJoin_cons_cons]
      simp [List.append_assoc]

theorem sepJoin_concat {sep s : List Char} {xs : List (List Char)} (hx : xs ≠ []) :
    sepJoin sep (xs ++ [s]) = sepJoin sep xs ++ sep ++ s :=
  sepJoin_append hx (by simp)

theorem sepJoin_ne_nil {sep : List Char} {xs : List (List Char)}
    (hne : xs ≠ []) (hu : ∀ u ∈ xs, u ≠ []) : sepJoin sep xs ≠ [] := by
  cases xs with
  | nil => exact absurd rfl hne
  | cons u rest =>
    have hu1 : u ≠ [] := hu u (List.mem_cons_self _ _)
    cases rest with
    | nil => simpa [sepJoin] using hu1
    | cons v vs =>
      rw [sepJoin_cons_cons]
      simp [hu1]

theorem sepJoin_headNotSpace {sep : List Char} {xs : List (List Char)}
    (hne : xs ≠ []) (hu : ∀ u ∈ xs, u ≠ []) (hh : ∀ u ∈ xs, headNotSpace u) :
    headNotSpace (sepJoin sep xs) := by
  cases xs with
  | nil => exact absurd rfl hne
  | cons u rest =>
    have hu1 : u ≠ [] := hu u (List.mem_cons_self _ _)
    have hh1 : headNotSpace u := hh u (List.mem_cons_self _ _)
    cases rest with
    | nil => exact hh1
    | cons v vs =>
      rw [sepJoin_cons_cons, List.append_assoc]
      exact headNotSpace_of_head hu1 hh1

theorem spaceJoin_ws {ws : List (List Char)} (hne : ws ≠ []) (hw : ∀ w ∈ ws, WordShape w) :
    spaceJoin ws ≠ [] ∧ headNotSpace (spaceJoin ws) := by
  refine ⟨sepJoin_ne_nil hne (fun u hu => (hw u hu).1), ?_⟩
  exact sepJoin_headNotSpace hne (fun u hu => (hw u hu).1)
    (fun u hu => wordShape_headNotSpace (hw u hu))

/-- Gluing a clean-headed buffer, the '. ' delimiter and a clean unit keeps
both ends clean. -/
theorem cleanL_glue {l s : List Char} (hl : l ≠ []) (h1 : headNotSpace l)
    (hs : s ≠ []) (h2 : headNotSpace s.reverse) : CleanL (l ++ dotSep ++ s) := by
  constructor
  · rw [List.append_assoc]
    exact headNotSpace_of_head hl h1
  · have : (l ++ dotSep ++ s).reverse = s.reverse ++ (dotSep.reverse ++ l.reverse) := by
      simp [List.append_assoc]
    rw [this]
    exact headNotSpace_of_head (by simpa using hs) h2

theorem dictGet_map_set (k : String) (v : MVal) :
    ∀ m : Meta, m.any (fun kv => kv.1 == k) = true →
      dictGet (m.map (fun kv => if kv.1 = k then (k, v) else kv)) k = some v := by
  intro m
  induction m with
  | nil => intro h; simp at h
  | cons kv rest ih =>
    intro h
    by_cases hk : kv.1 = k
    · simp [dictGet, hk]
    · have h' : rest.any (fun kv => kv.1 == k) = true := by
        rcases List.any_eq_true.mp h with ⟨x, hx, hpx⟩
        rcases List.mem_cons.mp hx with rfl | hx
        · exact absurd (by simpa using hpx) hk
        · exact List.any_eq_true.mpr ⟨x, hx, hpx⟩
      rw [List.map_cons, if_neg hk, dictGet, if_neg hk]
      exact ih h'

theorem dictGet_append_miss (k : String) (v : MVal) :
    ∀ m : Meta, m.any (fun kv => kv.1 == k) = false →
      dictGet (m ++ [(k, v)]) k = some v := by
  intro m
  induction m with
  | nil => intro _; simp [dictGet]
  | cons kv rest ih =>
    intro h
    rw [List.any_cons, Bool.or_eq_false_iff] at h
    have hk : kv.1 ≠ k := by simpa using h.1
    rw [List.cons_append, dictGet, if_neg hk]
    exact ih h.2

/-- The chunk_index written by {**metadata, 'chunk_index': n} reads back. -/
theorem dictGet_metaSet (m : Meta) (k : String) (v : MVal) :
    dictGet (metaSet m k v) k = some v := by
  unfold metaSet
  by_cases h : m.any (fun kv => kv.1 == k)
  · rw [if_pos h]; exact dictGet_map_set k v m h
  · rw [if_neg h]; exact dictGet_append_miss k v m (Bool.eq_false_iff.mpr h)

theorem ovPre_append {cs : List Chunk} {c : Chunk} {i : Nat} (h : i ≤ cs.length) :
    ovPre (cs ++ [c]) i = ovPre cs i := by
  cases i with
  | zero => rfl
  | succ j =>
    simp only [ovPre]
    rw [List.getElem?_append_left (by omega)]

theorem ovPre_concat (cs : List Chunk) (c : Chunk) :
    ovPre (cs ++ [c]) (cs.length + 1) = spaceJoin (overlapWords c.content) ++ dotSep := by
  simp only [ovPre]
  rw [List.getElem?_concat_length]

theorem getElem?_concat_cases {α : Type} {l : List α} {a x : α} {i : Nat}
    (h : (l ++ [a])[i]? = some x) :
    (i < l.length ∧ l[i]? = some x) ∨ (i = l.length ∧ x = a) := by
  rcases Nat.lt_trichotomy i l.length with hi | hi | hi
  · left
    exact ⟨hi, by rwa [List.getElem?_append_left hi] at h⟩
  · right
    subst hi
    rw [List.getElem?_concat_length] at h
    exact ⟨rfl, (Option.some_inj.mp h).symm⟩
  · exfalso
    rw [List.getElem?_eq_none (by simp; omega)] at h
    cases h

theorem inv_init (meta : Meta) (S : List (List Char)) : ChunkInv meta S [] ⟨[], [], 0⟩ := by
  refine ⟨rfl, cleanL_nil, ?_, ?_, Or.inl (Nat.zero_le _), ?_⟩
  · intro i c h; simp at h
  · intro c h; simp at h
  · exact ⟨[], [], rfl, by simp, by simp, rfl, by intro i c seg h; simp at h,
      Or.inl ⟨rfl, rfl, rfl⟩⟩

theorem chunkStep_inv {meta : Meta} {S done : List (List Char)} {st : CState}
    {s : List Char} (hsS : s ∈ S) (hsne : s ≠ []) (hscl : CleanL s)
    (hinv : ChunkInv meta S done st) :
    ChunkInv meta S (done ++ [s]) (chunkStep meta st s) := by
  obtain ⟨hlen_eq, hclean, hidx, hcok, hcsize, segs, curSeg, hseglen, hsegne, hcurne,
    hjoin, hcontent, hcur⟩ := hinv
  unfold chunkStep
  by_cases hcond : st.current_length + s.length > chunk_size ∧ st.current_chunk ≠ []
  · rw [if_pos hcond]
    obtain ⟨hover, hne⟩ := hcond
    have hstrip : strip st.current_chunk = st.current_chunk := strip_eq_self_of_clean hclean
    obtain ⟨how_ne, how_len, how_ws⟩ := overlapWords_spec hne hclean.1
    obtain ⟨hsj_ne, hsj_head⟩ := spaceJoin_ws how_ne how_ws
    rcases hcur with ⟨_, hemp, _⟩ | ⟨hcne, hcureq⟩
    · exact absurd hemp hne
    refine ⟨rfl, ?_, ?_, ?_, ?_, ?_⟩
    · exact cleanL_glue hsj_ne hsj_head hsne hscl.2
    · intro i c h
      rcases getElem?_concat_cases h with ⟨hi, h'⟩ | ⟨hi, rfl⟩
      · exact hidx i c h'
      · rw [hi]
    · intro c hc
      rcases List.mem_append.mp hc with hc | hc
      · exact hcok c hc
      · have hc' : c = ⟨strip st.current_chunk,
            metaSet meta "chunk_index" (MVal.nat st.chunks.length)⟩ := by simpa using hc
        subst hc'
        rw [hstrip]
        exact ⟨hne, hclean, hcsize⟩
    · exact Or.inr (Or.inr ⟨overlapWords st.current_chunk, s, hsS, how_ne, how_len,
        how_ws, rfl⟩)
    · refine ⟨segs ++ [curSeg], [s], by simp [hseglen], ?_, ?_, ?_, ?_, ?_⟩
      · intro seg hseg
        rcases List.mem_append.mp hseg with h | h
        · exact hsegne seg h
        · have : seg = curSeg := by simpa using h
          subst this
          exact hcne
      · intro u hu
        have : u = s := by simpa using hu
        subst this
        exact hsne
      · rw [List.flatten_append]
        simp only [List.flatten_cons, List.flatten_nil, List.append_nil]
        rw [hjoin]
      · intro i c seg hci hsi
        rcases getElem?_concat_cases hci with ⟨hi, hci'⟩ | ⟨hi, rfl⟩
        · rw [List.getElem?_append_left (by omega : i < segs.length)] at hsi
          rw [ovPre_append (Nat.le_of_lt hi)]
          exact hcontent i c seg hci' hsi
        · subst hi
          rw [← hseglen, List.getElem?_concat_length] at hsi
          have hseg : seg = curSeg := by
            have := Option.some_inj.mp hsi
            exact this.symm
          subst hseg
          rw [ovPre_append (le_refl _), hstrip]
          exact hcureq
      · right
        refine ⟨by simp, ?_⟩
        rw [show (st.chunks ++ [(⟨strip st.current_chunk,
            metaSet meta "chunk_index" (MVal.nat st.chunks.length)⟩ : Chunk)]).length
            = st.chunks.length + 1 by simp, ovPre_concat]
        show spaceJoin (overlapWords st.current_chunk) ++ dotSep ++ s
          = spaceJoin (overlapWords (strip st.current_chunk)) ++ dotSep ++ sepJoin dotSep [s]
        rw [hstrip]
        rfl
  · rw [if_neg hcond]
    by_cases hne : st.current_chunk = []
    · have hcurs : st.current_chunk ++ (if st.current_chunk ≠ [] then dotSep else []) ++ s
          = s := by simp [hne]
      rw [hcurs]
      rcases hcur with ⟨hcseg, _, hchunks⟩ | ⟨hcne, hcureq⟩
      · have hsegnil : segs = [] := List.length_eq_zero.mp (by rw [hseglen, hchunks]; rfl)
        subst hcseg
        subst hsegnil
        have hdone : done = [] := by simpa using hjoin.symm
        refine ⟨rfl, hscl, hidx, hcok, Or.inr (Or.inl hsS), [], [s], by simp [hchunks],
          by simp, ?_, by rw [hdone]; simp, ?_, ?_⟩
        · intro u hu
          have : u = s := by simpa using hu
          subst this
          exact hsne
        · intro i c seg hci
          rw [hchunks] at hci
          simp at hci
        · right
          rw [hchunks]
          exact ⟨by simp, rfl⟩
      · exfalso
        rw [hne] at hcureq
        have := List.append_eq_nil.mp hcureq.symm
        exact sepJoin_ne_nil hcne hcurne this.2
    · have hle : st.current_length + s.length ≤ chunk_size := by
        rcases not_and_or.mp hcond with h | h
        · omega
        · exact absurd hne (by simpa using h)
      have hif : (if st.current_chunk ≠ [] then dotSep else []) = dotSep := if_pos hne
      rw [hif]
      rcases hcur with ⟨_, hemp, _⟩ | ⟨hcne, hcureq⟩
      · exact absurd hemp hne
      refine ⟨rfl, cleanL_glue hne hclean.1 hsne hscl.2, hidx, hcok, ?_, ?_⟩
      · left
        have : (st.current_chunk ++ dotSep ++ s).length
            = st.current_chunk.length + 2 + s.length := by
          simp [dotSep]
          omega
        rw [this]
        omega
      · refine ⟨segs, curSeg ++ [s], hseglen, hsegne, ?_, ?_, hcontent, ?_⟩
        · intro u hu
          rcases List.mem_append.mp hu with h | h
          · exact hcurne u h
          · have : u = s := by simpa using h
            subst this
            exact hsne
        · rw [← List.append_assoc, hjoin]
        · right
          refine ⟨by simp, ?_⟩
          rw [sepJoin_concat hcne, hcureq]
          simp [List.append_assoc]

theorem foldl_inv {meta : Meta} {S : List (List Char)}
    (hS : ∀ s ∈ S, s ≠ [] ∧ CleanL s) :
    ∀ (todo done : List (List Char)) (st : CState), done ++ todo = S →
      ChunkInv meta S done st →
      ChunkInv meta S S (todo.foldl (chunkStep meta) st) := by
  intro todo
  induction todo with
  | nil =>
    intro done st heq hinv
    rw [List.append_nil] at heq
    subst heq
    simpa using hinv
  | cons s rest ih =>
    intro done st heq hinv
    have hsS : s ∈ S := by
      rw [← heq]
      simp
    obtain ⟨hsne, hscl⟩ := hS s hsS
    rw [List.foldl_cons]
    exact ih (done ++ [s]) _ (by rw [← heq]; simp) (chunkStep_inv hsS hsne hscl hinv)

theorem finishChunks_outSpec {meta : Meta} {S : List (List Char)} {st : CState}
    (hinv : ChunkInv meta S S st) : OutSpec meta S (finishChunks meta st) := by
  obtain ⟨_, hclean, hidx, hcok, hcsize, segs, curSeg, hseglen, hsegne, hcurne,
    hjoin, hcontent, hcur⟩ := hinv
  unfold finishChunks
  by_cases hne : st.current_chunk = []
  · rw [hne, strip_nil, if_neg (by simp)]
    rcases hcur with ⟨hcseg, _, hchunks⟩ | ⟨hcne, hcureq⟩
    · subst hcseg
      refine ⟨hidx, ?_, fun c hc => (hcok c hc).2.2, segs, hseglen, hsegne,
        by simpa using hjoin, hcontent⟩
      intro c hc
      obtain ⟨h1, h2, _⟩ := hcok c hc
      exact ⟨h1, strip_eq_self_of_clean h2⟩
    · exfalso
      rw [hne] at hcureq
      have := List.append_eq_nil.mp hcureq.symm
      exact sepJoin_ne_nil hcne hcurne this.2
  · have hstrip : strip st.current_chunk = st.current_chunk := strip_eq_self_of_clean hclean
    rw [hstrip, if_pos hne]
    rcases hcur with ⟨_, hemp, _⟩ | ⟨hcne, hcureq⟩
    · exact absurd hemp hne
    refine ⟨?_, ?_, ?_, segs ++ [curSeg], by simp [hseglen], ?_, ?_, ?_⟩
    · intro i c h
      rcases getElem?_concat_cases h with ⟨_, h'⟩ | ⟨hi, rfl⟩
      · exact hidx i c h'
      · rw [hi]
    · intro c hc
      rcases List.mem_append.mp hc with hc | hc
      · obtain ⟨h1, h2, _⟩ := hcok c hc
        exact ⟨h1, strip_eq_self_of_clean h2⟩
      · have hc' : c = ⟨st.current_chunk,
            metaSet meta "chunk_index" (MVal.nat st.chunks.length)⟩ := by simpa using hc
        subst hc'
        exact ⟨hne, strip_eq_self_of_clean hclean⟩
    · intro c hc
      rcases List.mem_append.mp hc with hc | hc
      · exact (hcok c hc).2.2
      · have hc' : c = ⟨st.current_chunk,
            metaSet meta "chunk_index" (MVal.nat st.chunks.length)⟩ := by simpa using hc
        subst hc'
        exact hcsize
    · intro seg hseg
      rcases List.mem_append.mp hseg with h | h
      · exact hsegne seg h
      · have : seg = curSeg := by simpa using h
        subst this
        exact hcne
    · rw [List.flatten_append]
      simpa using hjoin
    · intro i c seg hci hsi
      rcases getElem?_concat_cases hci with ⟨hi, hci'⟩ | ⟨hi, rfl⟩
      · rw [List.getElem?_append_left (by omega : i < segs.length)] at hsi
        rw [ovPre_append (Nat.le_of_lt hi)]
        exact hcontent i c seg hci' hsi
      · subst hi
        rw [← hseglen, List.getElem?_concat_length] at hsi
        have hseg : seg = curSeg := (Option.some_inj.mp hsi).symm
        subst hseg
        rw [ovPre_append (le_refl _)]
        exact hcureq

/-- Everything the invariant yields about create_chunks on arbitrary text. -/
theorem create_chunks_outSpec (text : List Char) (meta : Meta) :
    OutSpec meta (sentenceUnits text) (create_chunks text meta) := by
  have hS : ∀ s ∈ sentenceUnits text, s ≠ [] ∧ CleanL s := fun s h => sentenceUnits_mem h
  exact finishChunks_outSpec
    (foldl_inv hS (sentenceUnits text) [] ⟨[], [], 0⟩ rfl (inv_init meta _))

theorem splitOnPred_no_p {p : Char → Bool} :
    ∀ {xs : List Char}, (∀ a ∈ xs, p a = false) → splitOnPred p xs = [xs] := by
  intro xs
  induction xs with
  | nil => intro _; rfl
  | cons c cs ih =>
    intro h
    have hc : p c = false := h c (List.mem_cons_self _ _)
    rw [splitOnPred_cons_neg hc (ih (fun a ha => h a (List.mem_cons_of_mem c ha)))]

theorem splitOnPred_sep {p : Char → Bool} {c : Char} {ys : List Char} (hc : p c = true) :
    ∀ {xs : List Char}, (∀ a ∈ xs, p a = false) →
      splitOnPred p (xs ++ c :: ys) = xs :: splitOnPred p ys := by
  intro xs
  induction xs with
  | nil =>
    intro _
    obtain ⟨r, rs, he⟩ := List.exists_cons_of_ne_nil (splitOnPred_ne_nil p ys)
    rw [List.nil_append, splitOnPred_cons_pos hc he, he]
  | cons a as ih =>
    intro h
    have ha : p a = false := h a (List.mem_cons_self _ _)
    rw [List.cons_append,
      splitOnPred_cons_neg ha (ih (fun x hx => h x (List.mem_cons_of_mem a hx)))]

theorem cleanL_of_nonspace {l : List Char} (h : ∀ a ∈ l, isSpace a = false) : CleanL l := by
  constructor
  · cases l with
    | nil => trivial
    | cons c cs => exact h c (List.mem_cons_self _ _)
  · rcases hr : l.reverse with _ | ⟨c, cs⟩
    · trivial
    · exact h c (List.mem_reverse.mp (hr ▸ List.mem_cons_self c cs))

theorem overlapWords_single {l : List Char} (hne : l ≠ [])
    (hns : ∀ a ∈ l, isSpace a = false) : overlapWords l = [l] := by
  unfold overlapWords pySplitWs
  rw [splitOnPred_no_p hns]
  simp [hne]

theorem chunkStep_empty (meta : Meta) (chunks : List Chunk) (s : List Char) :
    chunkStep meta ⟨chunks, [], 0⟩ s = ⟨chunks, s, s.length⟩ := by
  unfold chunkStep
  rw [if_neg (fun h => h.2 rfl)]
  simp

theorem chunkStep_append {meta : Meta} {chunks : List Chunk} {cur s : List Char} {n : Nat}
    (hle : n + s.length ≤ chunk_size) (hne : cur ≠ []) :
    chunkStep meta ⟨chunks, cur, n⟩ s
      = ⟨chunks, cur ++ dotSep ++ s, (cur ++ dotSep ++ s).length⟩ := by
  unfold chunkStep
  rw [if_neg (fun h => absurd h.1 (by simp only []; omega))]
  simp [if_pos hne]

theorem chunkStep_overflow {meta : Meta} {chunks : List Chunk} {cur s : List Char} {n : Nat}
    (hgt : n + s.length > chunk_size) (hne : cur ≠ []) :
    chunkStep meta ⟨chunks, cur, n⟩ s
      = ⟨chunks ++ [⟨strip cur, metaSet meta "chunk_index" (MVal.nat chunks.length)⟩],
         spaceJoin (overlapWords cur) ++ dotSep ++ s,
         (spaceJoin (overlapWords cur) ++ dotSep ++ s).length⟩ := by
  unfold chunkStep
  rw [if_pos ⟨hgt, hne⟩]

theorem finishChunks_flush {meta : Meta} {chunks : List Chunk} {cur : List Char} {n : Nat}
    (hstrip : strip cur = cur) (hne : cur ≠ []) :
    finishChunks meta ⟨chunks, cur, n⟩
      = chunks ++ [⟨cur, metaSet meta "chunk_index" (MVal.nat chunks.length)⟩] := by
  unfold finishChunks
  simp only [hstrip]
  rw [if_pos hne]

/-- C1 (amended): every chunk create_chunks emits has content length at most
chunk_size + 2 (the '. ' rejoin is not counted by the overflow check), except
chunks consisting of a freshly seeded buffer — a single sentence unit,
possibly preceded by the overlap seed — which are emitted whole. -/
theorem create_chunks_size (text : List Char) (meta : Meta) :
    ∀ c ∈ create_chunks text meta,
      c.content.length ≤ chunk_size + 2 ∨ SeedShape (sentenceUnits text) c.content :=
  fun c hc => (create_chunks_outSpec text meta).size c hc

/-- Witness for create_chunks_size at the two-character text "Hi". -/
theorem create_chunks_size_witness :
    (⟨['H', 'i'], [("chunk_index", MVal.nat 0)]⟩ : Chunk) ∈ create_chunks ['H', 'i'] [] ∧
      ((⟨['H', 'i'], [("chunk_index", MVal.nat 0)]⟩ : Chunk).content.length ≤ chunk_size + 2 ∨
        SeedShape (sentenceUnits ['H', 'i'])
          (⟨['H', 'i'], [("chunk_index", MVal.nat 0)]⟩ : Chunk).content) := by
  have h : (⟨['H', 'i'], [("chunk_index", MVal.nat 0)]⟩ : Chunk)
      ∈ create_chunks ['H', 'i'] [] := by decide
  exact ⟨h, create_chunks_size ['H', 'i'] [] _ h⟩

theorem replicate_no_space (ch : Char) (h : isSpace ch = false) (n : Nat) :
    ∀ a ∈ List.replicate n ch, isSpace a = false := by
  intro a ha
  rw [List.eq_of_mem_replicate ha]
  exact h

theorem replicate_nonempty {α : Type} (a : α) {n : Nat} (h : n ≠ 0) :
    List.replicate n a ≠ [] := by
  rw [Ne, ← List.length_eq_zero, List.length_replicate]
  exact h

/-- Turns a two-unit split into its trimmed non-empty sentence units. -/
theorem units_of_two {A B : List Char} (hA : strip A = A) (hB : strip B = B)
    (hAne : A ≠ []) (hBne : B ≠ []) :
    (([A, B].map strip).filter (fun s => s ≠ [])) = [A, B] := by
  rw [List.map_cons, List.map_cons, List.map_nil, hA, hB,
    List.filter_cons_of_pos (by exact decide_eq_true hAne),
    List.filter_cons_of_pos (by exact decide_eq_true hBne), List.filter_nil]

theorem c1_units : sentenceUnits c1Text
    = [List.replicate 500 'a', List.replicate 500 'b'] := by
  have hsplit : splitOnChar '.' c1Text
      = [List.replicate 500 'a', List.replicate 500 'b'] := by
    unfold c1Text splitOnChar
    rw [splitOnPred_sep (by decide)
        (fun a ha => by rw [List.eq_of_mem_replicate ha]; decide),
      splitOnPred_no_p (fun a ha => by rw [List.eq_of_mem_replicate ha]; decide)]
  unfold sentenceUnits
  rw [hsplit]
  exact units_of_two
    (strip_eq_self_of_clean
      (cleanL_of_nonspace (replicate_no_space 'a' (by decide) 500)))
    (strip_eq_self_of_clean
      (cleanL_of_nonspace (replicate_no_space 'b' (by decide) 500)))
    (replicate_nonempty 'a' (by omega)) (replicate_nonempty 'b' (by omega))

set_option maxRecDepth 4000 in
theorem c1_chunks : create_chunks c1Text []
    = [⟨c1Content, [("chunk_index", MVal.nat 0)]⟩] := by
  have hAne : List.replicate 500 'a' ≠ ([] : List Char) := replicate_nonempty 'a' (by omega)
  have hBne : List.replicate 500 'b' ≠ ([] : List Char) := replicate_nonempty 'b' (by omega)
  unfold create_chunks
  rw [c1_units, List.foldl_cons, chunkStep_empty, List.foldl_cons,
    chunkStep_append (by simp only [List.length_replicate, chunk_size]; omega) hAne,
    List.foldl_nil]
  have hclean : CleanL (List.replicate 500 'a' ++ dotSep ++ List.replicate 500 'b') := by
    refine cleanL_glue hAne ?_ hBne ?_
    · exact (cleanL_of_nonspace (replicate_no_space 'a' (by decide) 500)).1
    · exact (cleanL_of_nonspace (replicate_no_space 'b' (by decide) 500)).2
  rw [finishChunks_flush (strip_eq_self_of_clean hclean)
    (fun h => hAne (List.append_eq_nil.mp (List.append_eq_nil.mp h).1).1)]
  rfl

/-- C1 counterexample: on `c1Text` the chunker emits one chunk of 1002 > 1000
characters whose content is not a single sentence unit of the text, so the
claimed bound (chunk_size, excepting only oversized single sentences) fails. -/
theorem create_chunks_size_cex :
    (create_chunks c1Text []).map Chunk.content = [c1Content] ∧
      c1Content.length = 1002 ∧ chunk_size = 1000 ∧
      c1Content ∉ sentenceUnits c1Text := by
  have hlen : c1Content.length = 1002 := by
    unfold c1Content
    rw [List.length_append, List.length_cons, List.length_cons,
      List.length_replicate, List.length_replicate]
  refine ⟨by rw [c1_chunks]; rfl, hlen, rfl, ?_⟩
  rw [c1_units]
  intro h
  rcases List.mem_cons.mp h with h | h
  · have h' := congrArg List.length h
    rw [hlen, List.length_replicate] at h'
    omega
  · rcases List.mem_cons.mp h with h | h
    · have h' := congrArg List.length h
      rw [hlen, List.length_replicate] at h'
      omega
    · exact List.not_mem_nil _ h

/-- C2: the emitted chunk contents partition the trimmed non-empty sentence
units: there are non-empty consecutive segments, one per chunk, whose
concatenation is exactly the unit sequence, and chunk i's content is its
overlap prefix (empty for i = 0) followed by its segment rejoined with '. '. -/
theorem create_chunks_reconstruction (text : List Char) (meta : Meta) :
    ∃ segs : List (List (List Char)),
      segs.length = (create_chunks text meta).length ∧
      (∀ seg ∈ segs, seg ≠ []) ∧
      segs.flatten = sentenceUnits text ∧
      ∀ i c seg, (create_chunks text meta)[i]? = some c → segs[i]? = some seg →
        c.content = ovPre (create_chunks text meta) i ++ sepJoin dotSep seg :=
  (create_chunks_outSpec text meta).recon

/-- C3: each chunk after the first begins with the last at-most-20
whitespace-delimited words of the previous chunk's content, joined by
single spaces. -/
theorem create_chunks_overlap (text : List Char) (meta : Meta) (i : Nat)
    (c c' : Chunk) (h : (create_chunks text meta)[i]? = some c)
    (h' : (create_chunks text meta)[i + 1]? = some c') :
    spaceJoin (overlapWords c.content) <+: c'.content := by
  obtain ⟨segs, hlen, _, _, hcontent⟩ := (create_chunks_outSpec text meta).recon
  have hi1 : i + 1 < (create_chunks text meta).length := by
    by_contra hcon
    rw [List.getElem?_eq_none (by omega)] at h'
    cases h'
  rcases hx : segs[i + 1]? with _ | seg
  · rw [List.getElem?_eq_none_iff] at hx
    omega
  have hceq := hcontent (i + 1) c' seg h' hx
  have hov : ovPre (create_chunks text meta) (i + 1)
      = spaceJoin (overlapWords c.content) ++ dotSep := by
    simp only [ovPre]
    rw [h]
  refine ⟨dotSep ++ sepJoin dotSep seg, ?_⟩
  rw [hceq, hov]
  simp [List.append_assoc]

theorem spaceJoin_single (w : List Char) : spaceJoin [w] = w := rfl

theorem c3_units : sentenceUnits c3wText
    = [List.replicate 600 'a', List.replicate 600 'b'] := by
  have hsplit : splitOnChar '.' c3wText
      = [List.replicate 600 'a', List.replicate 600 'b'] := by
    unfold c3wText splitOnChar
    rw [splitOnPred_sep (by decide)
        (fun a ha => by rw [List.eq_of_mem_replicate ha]; decide),
      splitOnPred_no_p (fun a ha => by rw [List.eq_of_mem_replicate ha]; decide)]
  unfold sentenceUnits
  rw [hsplit]
  exact units_of_two
    (strip_eq_self_of_clean
      (cleanL_of_nonspace (replicate_no_space 'a' (by decide) 600)))
    (strip_eq_self_of_clean
      (cleanL_of_nonspace (replicate_no_space 'b' (by decide) 600)))
    (replicate_nonempty 'a' (by omega)) (replicate_nonempty 'b' (by omega))

set_option maxRecDepth 4000 in
theorem c3_chunks : create_chunks c3wText [] = [c3wChunk0, c3wChunk1] := by
  have hAne : List.replicate 600 'a' ≠ ([] : List Char) := replicate_nonempty 'a' (by omega)
  have hBne : List.replicate 600 'b' ≠ ([] : List Char) := replicate_nonempty 'b' (by omega)
  have hstripA := strip_eq_self_of_clean
    (cleanL_of_nonspace (replicate_no_space 'a' (by decide) 600))
  unfold create_chunks
  rw [c3_units, List.foldl_cons, chunkStep_empty, List.foldl_cons,
    chunkStep_overflow (by simp only [List.length_replicate, chunk_size]; omega) hAne,
    List.foldl_nil, hstripA,
    overlapWords_single hAne (replicate_no_space 'a' (by decide) 600),
    spaceJoin_single]
  have hclean : CleanL (List.replicate 600 'a' ++ dotSep ++ List.replicate 600 'b') := by
    refine cleanL_glue hAne ?_ hBne ?_
    · exact (cleanL_of_nonspace (replicate_no_space 'a' (by decide) 600)).1
    · exact (cleanL_of_nonspace (replicate_no_space 'b' (by decide) 600)).2
  rw [finishChunks_flush (strip_eq_self_of_clean hclean)
    (fun h => hAne (List.append_eq_nil.mp (List.append_eq_nil.mp h).1).1)]
  rfl

/-- Witness for create_chunks_overlap on the two-chunk text `c3wText`. -/
theorem create_chunks_overlap_witness :
    (create_chunks c3wText [])[0]? = some c3wChunk0 ∧
      (create_chunks c3wText [])[1]? = some c3wChunk1 ∧
      spaceJoin (overlapWords c3wChunk0.content) <+: c3wChunk1.content := by
  have h0 : (create_chunks c3wText [])[0]? = some c3wChunk0 := by rw [c3_chunks]; rfl
  have h1 : (create_chunks c3wText [])[1]? = some c3wChunk1 := by rw [c3_chunks]; rfl
  exact ⟨h0, h1, create_chunks_overlap c3wText [] 0 c3wChunk0 c3wChunk1 h0 h1⟩

/-- C8: every chunk content is non-empty after trimming, and the empty text
produces no chunks. -/
theorem create_chunks_nonempty (text : List Char) (meta : Meta) :
    (∀ c ∈ create_chunks text meta, strip c.content ≠ []) ∧
      create_chunks [] meta = [] := by
  constructor
  · intro c hc
    obtain ⟨h1, h2⟩ := (create_chunks_outSpec text meta).nonempty_clean c hc
    rw [h2]
    exact h1
  · rfl

theorem sepJoin_head_le (sep s : List Char) (rest : List (List Char)) :
    s.length ≤ (sepJoin sep (s :: rest)).length := by
  cases rest with
  | nil => exact le_refl _
  | cons r rs =>
    rw [sepJoin_cons_cons]
    simp [List.length_append]

theorem sepJoin_prefix_le {sep s : List Char} {done rest : List (List Char)}
    (hd : done ≠ []) :
    (sepJoin sep done).length + s.length ≤ (sepJoin sep (done ++ s :: rest)).length := by
  rw [sepJoin_append hd (by simp : s :: rest ≠ [])]
  have h1 := sepJoin_head_le sep s rest
  simp only [List.length_append]
  omega

/-- When the whole '. '-rejoined unit list fits in chunk_size, the loop only
ever appends: it ends with no closed chunk and the fully rejoined buffer. -/
theorem foldl_no_overflow (meta : Meta) {units : List (List Char)}
    (hU : ∀ s ∈ units, s ≠ []) (hlen : (sepJoin dotSep units).length ≤ chunk_size) :
    ∀ (todo done : List (List Char)), done ++ todo = units →
      todo.foldl (chunkStep meta) ⟨[], sepJoin dotSep done, (sepJoin dotSep done).length⟩
        = ⟨[], sepJoin dotSep units, (sepJoin dotSep units).length⟩ := by
  intro todo
  induction todo with
  | nil =>
    intro done heq
    rw [List.append_nil] at heq
    subst heq
    rfl
  | cons s rest ih =>
    intro done heq
    rw [List.foldl_cons]
    have hstep : chunkStep meta
        ⟨[], sepJoin dotSep done, (sepJoin dotSep done).length⟩ s
        = ⟨[], sepJoin dotSep (done ++ [s]), (sepJoin dotSep (done ++ [s])).length⟩ := by
      by_cases hd : done = []
      · subst hd
        show chunkStep meta ⟨[], [], 0⟩ s = _
        rw [chunkStep_empty]
        rfl
      · have hdne : sepJoin dotSep done ≠ [] :=
          sepJoin_ne_nil hd (fun u hu => hU u (by rw [← heq]; exact List.mem_append_left _ hu))
        have hle : (sepJoin dotSep done).length + s.length ≤ chunk_size := by
          have hpre : (sepJoin dotSep done).length + s.length
              ≤ (sepJoin dotSep (done ++ s :: rest)).length := sepJoin_prefix_le hd
          rw [heq] at hpre
          omega
        rw [chunkStep_append hle hdne, sepJoin_concat hd]
    rw [hstep]
    exact ih (done ++ [s]) (by rw [List.append_assoc]; exact heq)

theorem sepJoin_dotSep_clean :
    ∀ {units : List (List Char)}, units ≠ [] →
      (∀ u ∈ units, u ≠ [] ∧ CleanL u) → CleanL (sepJoin dotSep units) := by
  intro units
  induction units with
  | nil => intro h _; exact absurd rfl h
  | cons u rest ih =>
    intro _ hU
    obtain ⟨hu1, hu2⟩ := hU u (List.mem_cons_self _ _)
    cases rest with
    | nil => exact hu2
    | cons v vs =>
      rw [sepJoin_cons_cons]
      have hrest := ih (by simp) (fun x hx => hU x (List.mem_cons_of_mem _ hx))
      have hne : sepJoin dotSep (v :: vs) ≠ [] :=
        sepJoin_ne_nil (by simp) (fun x hx => (hU x (List.mem_cons_of_mem _ hx)).1)
      exact cleanL_glue hu1 hu2.1 hne hrest.2

/-- C7 (amended): when the text has at least one sentence unit and the
'. '-rejoined unit sequence fits within chunk_size, exactly one chunk is
produced and its metadata chunk_index is 0.  (Raw text length below
chunk_size does not suffice: rejoining widens each boundary to two
characters.) -/
theorem create_chunks_single (text : List Char) (meta : Meta)
    (hne : sentenceUnits text ≠ [])
    (hlen : (sepJoin dotSep (sentenceUnits text)).length ≤ chunk_size) :
    (create_chunks text meta).length = 1 ∧
      ∀ c ∈ create_chunks text meta,
        dictGet c.metadata "chunk_index" = some (MVal.nat 0) := by
  have hU : ∀ s ∈ sentenceUnits text, s ≠ [] := fun s h => (sentenceUnits_mem h).1
  have hUc : ∀ s ∈ sentenceUnits text, s ≠ [] ∧ CleanL s :=
    fun s h => sentenceUnits_mem h
  have hfold := foldl_no_overflow meta hU hlen (sentenceUnits text) [] rfl
  have hclean := sepJoin_dotSep_clean hne hUc
  have hjne : sepJoin dotSep (sentenceUnits text) ≠ [] := sepJoin_ne_nil hne hU
  unfold create_chunks
  have hinit : (⟨[], [], 0⟩ : CState)
      = ⟨[], sepJoin dotSep [], (sepJoin dotSep []).length⟩ := rfl
  rw [hinit, hfold, finishChunks_flush (strip_eq_self_of_clean hclean) hjne]
  constructor
  · rfl
  · intro c hc
    have hc' : c = ⟨sepJoin dotSep (sentenceUnits text),
        metaSet meta "chunk_index" (MVal.nat 0)⟩ := by
      rcases List.mem_cons.mp hc with h | h
      · exact h
      · exact absurd h (List.not_mem_nil c)
    subst hc'
    exact dictGet_metaSet meta "chunk_index" (MVal.nat 0)

/-- Witness for create_chunks_single at the text "Hello. World". -/
theorem create_chunks_single_witness :
    sentenceUnits
        ['H', 'e', 'l', 'l', 'o', '.', ' ', 'W', 'o', 'r', 'l', 'd'] ≠ [] ∧
      (sepJoin dotSep (sentenceUnits
        ['H', 'e', 'l', 'l', 'o', '.', ' ', 'W', 'o', 'r', 'l', 'd'])).length
        ≤ chunk_size ∧
      (create_chunks ['H', 'e', 'l', 'l', 'o', '.', ' ', 'W', 'o', 'r', 'l', 'd'] []).length
        = 1 ∧
      ∀ c ∈ create_chunks ['H', 'e', 'l', 'l', 'o', '.', ' ', 'W', 'o', 'r', 'l', 'd'] [],
        dictGet c.metadata "chunk_index" = some (MVal.nat 0) := by
  have h1 : sentenceUnits
      ['H', 'e', 'l', 'l', 'o', '.', ' ', 'W', 'o', 'r', 'l', 'd'] ≠ [] := by decide
  have h2 : (sepJoin dotSep (sentenceUnits
      ['H', 'e', 'l', 'l', 'o', '.', ' ', 'W', 'o', 'r', 'l', 'd'])).length
      ≤ chunk_size := by decide
  obtain ⟨ha, hb⟩ := create_chunks_single
    ['H', 'e', 'l', 'l', 'o', '.', ' ', 'W', 'o', 'r', 'l', 'd'] [] h1 h2
  exact ⟨h1, h2, ha, hb⟩

/-- A sequence of all-clean non-empty units maps through strip and the
non-empty filter unchanged. -/
theorem units_of_clean {us : List (List Char)}
    (h : ∀ u ∈ us, strip u = u ∧ u ≠ []) :
    ((us.map strip).filter (fun s => s ≠ [])) = us := by
  induction us with
  | nil => rfl
  | cons u rest ih =>
    obtain ⟨h1, h2⟩ := h u (List.mem_cons_self _ _)
    rw [List.map_cons, h1, List.filter_cons_of_pos (by exact decide_eq_true h2),
      ih (fun x hx => h x (List.mem_cons_of_mem _ hx))]

theorem c7_units : sentenceUnits c7Text
    = [List.replicate 248 'a', List.replicate 248 'a', List.replicate 248 'a',
       List.replicate 248 'a', ['b', 'b', 'b']] := by
  have hnp : ∀ a ∈ List.replicate 248 'a', (a == '.') = false :=
    fun a ha => by rw [List.eq_of_mem_replicate ha]; decide
  have hsplit : splitOnChar '.' c7Text
      = [List.replicate 248 'a', List.replicate 248 'a', List.replicate 248 'a',
         List.replicate 248 'a', ['b', 'b', 'b']] := by
    unfold c7Text splitOnChar
    rw [splitOnPred_sep (by decide) hnp, splitOnPred_sep (by decide) hnp,
      splitOnPred_sep (by decide) hnp, splitOnPred_sep (by decide) hnp,
      splitOnPred_no_p (by decide)]
  have hA : strip (List.replicate 248 'a') = List.replicate 248 'a' ∧
      List.replicate 248 'a' ≠ ([] : List Char) :=
    ⟨strip_eq_self_of_clean
      (cleanL_of_nonspace (replicate_no_space 'a' (by decide) 248)),
     replicate_nonempty 'a' (by omega)⟩
  unfold sentenceUnits
  rw [hsplit]
  refine units_of_clean ?_
  intro u hu
  rcases List.mem_cons.mp hu with rfl | hu
  · exact hA
  rcases List.mem_cons.mp hu with rfl | hu
  · exact hA
  rcases List.mem_cons.mp hu with rfl | hu
  · exact hA
  rcases List.mem_cons.mp hu with rfl | hu
  · exact hA
  rcases List.mem_cons.mp hu with rfl | hu
  · exact ⟨by decide, by decide⟩
  · exact absurd hu (List.not_mem_nil u)

theorem append_ne_nil_left {xs ys : List Char} (h : xs ≠ []) : xs ++ ys ≠ [] :=
  fun hc => h (List.append_eq_nil.mp hc).1

set_option maxRecDepth 4000 in
theorem c7_chunks_len : (create_chunks c7Text []).length = 2 := by
  have hAne : List.replicate 248 'a' ≠ ([] : List Char) := replicate_nonempty 'a' (by omega)
  have hAhead : headNotSpace (List.replicate 248 'a') :=
    (cleanL_of_nonspace (replicate_no_space 'a' (by decide) 248)).1
  have e1 : List.replicate 248 'a' ++ dotSep ≠ ([] : List Char) := append_ne_nil_left hAne
  have e2 : List.replicate 248 'a' ++ dotSep ++ List.replicate 248 'a' ≠ ([] : List Char) :=
    append_ne_nil_left e1
  have e3 : List.replicate 248 'a' ++ dotSep ++ List.replicate 248 'a' ++ dotSep
      ≠ ([] : List Char) := append_ne_nil_left e2
  have e4 : List.replicate 248 'a' ++ dotSep ++ List.replicate 248 'a' ++ dotSep
      ++ List.replicate 248 'a' ≠ ([] : List Char) := append_ne_nil_left e3
  have e5 : List.replicate 248 'a' ++ dotSep ++ List.replicate 248 'a' ++ dotSep
      ++ List.replicate 248 'a' ++ dotSep ≠ ([] : List Char) := append_ne_nil_left e4
  have e6 : List.replicate 248 'a' ++ dotSep ++ List.replicate 248 'a' ++ dotSep
      ++ List.replicate 248 'a' ++ dotSep ++ List.replicate 248 'a'
      ≠ ([] : List Char) := append_ne_nil_left e5
  have hh1 : headNotSpace (List.replicate 248 'a' ++ dotSep) :=
    headNotSpace_of_head hAne hAhead
  have hh2 : headNotSpace (List.replicate 248 'a' ++ dotSep ++ List.replicate 248 'a') :=
    headNotSpace_of_head e1 hh1
  have hh3 : headNotSpace (List.replicate 248 'a' ++ dotSep ++ List.replicate 248 'a'
      ++ dotSep) := headNotSpace_of_head e2 hh2
  have hh4 : headNotSpace (List.replicate 248 'a' ++ dotSep ++ List.replicate 248 'a'
      ++ dotSep ++ List.replicate 248 'a') := headNotSpace_of_head e3 hh3
  have hh5 : headNotSpace (List.replicate 248 'a' ++ dotSep ++ List.replicate 248 'a'
      ++ dotSep ++ List.replicate 248 'a' ++ dotSep) := headNotSpace_of_head e4 hh4
  have hh6 : headNotSpace (List.replicate 248 'a' ++ dotSep ++ List.replicate 248 'a'
      ++ dotSep ++ List.replicate 248 'a' ++ dotSep ++ List.replicate 248 'a') :=
    headNotSpace_of_head e5 hh5
  obtain ⟨how_ne, _, how_ws⟩ := overlapWords_spec e6 hh6
  obtain ⟨hsj_ne, hsj_head⟩ := spaceJoin_ws how_ne how_ws
  have hbne : (['b', 'b', 'b'] : List Char) ≠ [] := by decide
  have hbclean : CleanL (['b', 'b', 'b'] : List Char) :=
    cleanL_of_nonspace (by decide)
  have hclean5 := cleanL_glue hsj_ne hsj_head hbne hbclean.2
  unfold create_chunks
  rw [c7_units, List.foldl_cons, chunkStep_empty, List.foldl_cons,
    chunkStep_append
      (by simp only [List.length_replicate, chunk_size]; omega) hAne,
    List.foldl_cons,
    chunkStep_append
      (by simp only [List.length_append, List.length_replicate, dotSep,
        List.length_cons, List.length_nil, chunk_size]; omega) e2,
    List.foldl_cons,
    chunkStep_append
      (by simp only [List.length_append, List.length_replicate, dotSep,
        List.length_cons, List.length_nil, chunk_size]; omega) e4,
    List.foldl_cons,
    chunkStep_overflow
      (by simp only [List.length_append, List.length_replicate, dotSep,
        List.length_cons, List.length_nil, chunk_size]; omega) e6,
    List.foldl_nil,
    finishChunks_flush (strip_eq_self_of_clean hclean5)
      (append_ne_nil_left (append_ne_nil_left hsj_ne))]
  rfl

/-- C7 counterexample: `c7Text` has 999 < 1000 characters, yet create_chunks
emits two chunks, because the '. ' rejoining makes the in-progress buffer one
character wider per sentence boundary than the original text. -/
theorem create_chunks_single_cex :
    c7Text.length = 999 ∧ c7Text.length < chunk_size ∧
      (create_chunks c7Text []).length = 2 := by
  have hlen : c7Text.length = 999 := by
    simp only [c7Text, List.length_append, List.length_cons,
      List.length_replicate, List.length_nil]
  exact ⟨hlen, by rw [hlen]; decide, c7_chunks_len⟩

/-- C4: generate_embeddings yields exactly the service items' embeddings in
order — an equal-length, one-vector-per-text result whenever the service
honours its same-length response contract — and re-raises any service error
unchanged instead of returning a partial, empty or default result. -/
theorem generate_embeddings_spec (service : EmbService) (texts : List (List Char)) :
    (∀ data, service texts = Except.ok data → data.length = texts.length →
      generate_embeddings service texts = Except.ok (data.map EmbItem.embedding) ∧
        (data.map EmbItem.embedding).length = texts.length ∧
        ∀ i : Nat, (data.map EmbItem.embedding)[i]? = (data[i]?).map EmbItem.embedding) ∧
    ∀ e, service texts = Except.error e →
      generate_embeddings service texts = Except.error e := by
  constructor
  · intro data hok hlen
    refine ⟨?_, ?_, ?_⟩
    · unfold generate_embeddings
      rw [hok]
    · rw [List.length_map]
      exact hlen
    · intro i
      exact List.getElem?_map EmbItem.embedding data i
  · intro e herr
    unfold generate_embeddings
    rw [herr]

/-- Witness for generate_embeddings_spec: a two-text batch on an honest
service, and error propagation on a failing service. -/
theorem generate_embeddings_witness :
    generate_embeddings (fun _ => Except.ok [⟨[1]⟩, ⟨[2]⟩]) [['x'], ['y']]
        = Except.ok [[1], [2]] ∧
      generate_embeddings (fun _ => Except.error "boom") [['x'], ['y']]
        = Except.error "boom" := by
  constructor
  · exact ((generate_embeddings_spec (fun _ => Except.ok [⟨[1]⟩, ⟨[2]⟩])
      [['x'], ['y']]).1 [⟨[1]⟩, ⟨[2]⟩] rfl rfl).1
  · exact (generate_embeddings_spec (fun _ => Except.error "boom")
      [['x'], ['y']]).2 "boom" rfl

/-- C5: with equally many chunks and embeddings, store_chunks builds one
record per pair — the chunk's content, its metadata minus the chunk_index
key, the metadata's chunk_index promoted to top level, the paired embedding
and the timestamp — submits all of them in a single insert of the whole
batch, and propagates any insert error. -/
theorem store_chunks_spec (insert : InsertApi) (now : List Char)
    (chunks : List Chunk) (embeddings : List Emb)
    (hlen : chunks.length = embeddings.length) :
    (buildRecords now chunks embeddings).length = chunks.length ∧
      (∀ (i : Nat) (c : Chunk) (e : Emb), chunks[i]? = some c → embeddings[i]? = some e →
        (buildRecords now chunks embeddings)[i]?
          = some { content := c.content,
                   metadata := c.metadata.filter (fun kv => kv.1 != "chunk_index"),
                   chunk_index := dictGet c.metadata "chunk_index",
                   embedding := e,
                   created_at := now }) ∧
      (store_chunks insert now chunks embeddings).2
        = [Event.insertCall (buildRecords now chunks embeddings)] ∧
      ∀ err, insert (buildRecords now chunks embeddings) = Except.error err →
        (store_chunks insert now chunks embeddings).1 = Except.error err := by
  refine ⟨?_, ?_, rfl, ?_⟩
  · unfold buildRecords
    rw [List.length_map, List.length_zip, hlen, min_self]
  · intro i c e hc he
    unfold buildRecords
    rw [List.getElem?_map,
      show (chunks.zip embeddings)[i]? = some (c, e) from
        List.getElem?_zip_eq_some.mpr ⟨hc, he⟩]
    rfl
  · intro err herr
    unfold store_chunks
    rw [herr]

/-- Witness for store_chunks_spec on a one-chunk batch. -/
theorem store_chunks_spec_witness :
    ([⟨['x'], [("chunk_index", MVal.nat 0)]⟩] : List Chunk).length
        = ([[3]] : List Emb).length ∧
      (buildRecords ['T'] [⟨['x'], [("chunk_index", MVal.nat 0)]⟩] [[3]]).length
        = ([⟨['x'], [("chunk_index", MVal.nat 0)]⟩] : List Chunk).length := by
  have h : ([⟨['x'], [("chunk_index", MVal.nat 0)]⟩] : List Chunk).length
      = ([[3]] : List Emb).length := rfl
  exact ⟨h,
    (store_chunks_spec (fun _ => Except.ok ()) ['T']
      [⟨['x'], [("chunk_index", MVal.nat 0)]⟩] [[3]] h).1⟩

theorem zip_take_take {α β : Type} :
    ∀ (l₁ : List α) (l₂ : List β),
      l₁.zip l₂ = (l₁.take l₂.length).zip (l₂.take l₁.length) := by
  intro l₁
  induction l₁ with
  | nil => intro l₂; simp
  | cons a as ih =>
    intro l₂
    cases l₂ with
    | nil => simp
    | cons b bs =>
      rw [List.zip_cons_cons, List.length_cons, List.length_cons,
        List.take_succ_cons, List.take_succ_cons, List.zip_cons_cons, ← ih bs]

/-- C10: with unequal lengths, store_chunks silently builds and submits only
the first min(len chunks, len embeddings) records — the zip truncates — and
an accepting insert reports plain success for just those; the length
mismatch is never detected or signalled. -/
theorem store_chunks_mismatch (insert : InsertApi) (now : List Char)
    (chunks : List Chunk) (embeddings : List Emb) :
    (buildRecords now chunks embeddings).length
        = min chunks.length embeddings.length ∧
      buildRecords now chunks embeddings
        = buildRecords now (chunks.take embeddings.length)
            (embeddings.take chunks.length) ∧
      ∀ r, insert (buildRecords now chunks embeddings) = Except.ok r →
        (store_chunks insert now chunks embeddings).1
          = Except.ok (min chunks.length embeddings.length) := by
  have hmin : (buildRecords now chunks embeddings).length
      = min chunks.length embeddings.length := by
    unfold buildRecords
    rw [List.length_map, List.length_zip]
  refine ⟨hmin, ?_, ?_⟩
  · unfold buildRecords
    rw [← zip_take_take]
  · intro r hok
    simp only [store_chunks, hok, hmin]

/-- Witness for store_chunks_mismatch: two chunks, one embedding, one
record. -/
theorem store_chunks_mismatch_witness :
    (buildRecords ['T'] [⟨['x'], []⟩, ⟨['y'], []⟩] [[1]]).length = 1 ∧
      min ([⟨['x'], []⟩, ⟨['y'], []⟩] : List Chunk).length
        ([[1]] : List Emb).length = 1 := by
  have h := (store_chunks_mismatch (fun _ => Except.ok ()) ['T']
    [⟨['x'], []⟩, ⟨['y'], []⟩] [[1]]).1
  exact ⟨by rw [h]; decide, by decide⟩

theorem extract_text_error {f : PyFile} {err : String}
    (h : f.raw = Except.error err) : extract_text f = [] := by
  unfold extract_text
  by_cases hs : lowerStr f.suffix ∈ parserExts
  · rw [if_pos hs, h]
  · rw [if_neg hs]

theorem process_file_error {deps : Deps} {f : PyFile} {err : String}
    (h : f.raw = Except.error err) : process_file deps f = (false, []) := by
  unfold process_file
  rw [extract_text_error h, if_pos strip_nil]

/-- Folding the counting step from a shifted accumulator shifts the result. -/
theorem foldl_runStep_acc (deps : Deps) :
    ∀ (files : List PyFile) (p q : Nat) (evs : List Event),
      files.foldl (runStep deps) (p, q, evs)
        = (p + (processFiles deps files).1,
           q + (processFiles deps files).2.1,
           evs ++ (processFiles deps files).2.2) := by
  intro files
  induction files with
  | nil =>
    intro p q evs
    simp [processFiles]
  | cons f rest ih =>
    intro p q evs
    rcases hpf : process_file deps f with ⟨ok, fev⟩
    have hstep : ∀ (p' q' : Nat) (evs' : List Event),
        runStep deps (p', q', evs') f
          = (if ok then p' + 1 else p', if ok then q' else q' + 1, evs' ++ fev) := by
      intro p' q' evs'
      unfold runStep
      rw [hpf]
      cases ok <;> rfl
    have hPF : processFiles deps (f :: rest)
        = ((if ok then 1 else 0) + (processFiles deps rest).1,
           (if ok then 0 else 1) + (processFiles deps rest).2.1,
           fev ++ (processFiles deps rest).2.2) := by
      unfold processFiles
      rw [List.foldl_cons, hstep, ih]
      cases ok <;> simp [processFiles]
    rw [List.foldl_cons, hstep, ih, hPF]
    cases ok <;> simp <;> omega

/-- C6: a file whose format parser raises is counted once as failed and
never as processed, contributes no embedding or insert call, and every
other file of the run is processed exactly as it would have been. -/
theorem extraction_error_isolated (deps : Deps) (l1 l2 : List PyFile)
    (f : PyFile) (err : String) (hraw : f.raw = Except.error err) :
    (processFiles deps (l1 ++ f :: l2)).1
        = (processFiles deps l1).1 + (processFiles deps l2).1 ∧
      (processFiles deps (l1 ++ f :: l2)).2.1
        = (processFiles deps l1).2.1 + 1 + (processFiles deps l2).2.1 ∧
      (processFiles deps (l1 ++ f :: l2)).2.2
        = (processFiles deps l1).2.2 ++ (processFiles deps l2).2.2 := by
  have hbase : processFiles deps (l1 ++ f :: l2)
      = (l2.foldl (runStep deps)
          (runStep deps (processFiles deps l1) f)) := by
    unfold processFiles
    rw [List.foldl_append, List.foldl_cons]
  have hstep : runStep deps (processFiles deps l1) f
      = ((processFiles deps l1).1, (processFiles deps l1).2.1 + 1,
         (processFiles deps l1).2.2) := by
    unfold runStep
    rw [process_file_error hraw]
    simp
  rw [hbase, hstep, foldl_runStep_acc]
  exact ⟨rfl, rfl, rfl⟩

/-- Witness for extraction_error_isolated: a one-file run around the
raising file. -/
theorem extraction_error_isolated_witness :
    badFile.raw = Except.error "boom" ∧
      (processFiles deps0 ([] ++ badFile :: [])).1 = 0 ∧
      (processFiles deps0 ([] ++ badFile :: [])).2.1 = 1 := by
  have h := extraction_error_isolated deps0 [] [] badFile "boom" rfl
  exact ⟨rfl, h.1, h.2.1⟩

theorem foldl_collect_nil :
    ∀ (exts : List String) (entries : List PyFile) (acc : List PyFile),
      (∀ e ∈ exts, entries.filter (fun f => f.suffix == e) = []) →
      exts.foldl (fun acc e => acc ++ entries.filter (fun f => f.suffix == e)) acc
        = acc := by
  intro exts
  induction exts with
  | nil => intro _ _ _; rfl
  | cons e rest ih =>
    intro entries acc h
    rw [List.foldl_cons, h e (List.mem_cons_self _ _), List.append_nil]
    exact ih entries acc (fun x hx => h x (List.mem_cons_of_mem _ hx))

theorem collectFiles_nil {entries : List PyFile}
    (h : ∀ f ∈ entries, f.suffix ∉ supported_extensions) :
    collectFiles entries = [] := by
  unfold collectFiles
  refine foldl_collect_nil supported_extensions entries [] ?_
  intro e he
  rw [List.filter_eq_nil_iff]
  intro f hfe
  simp only [beq_iff_eq]
  exact fun heq => h f hfe (heq ▸ he)

/-- C9: an existing directory with no file of a supported extension yields
0 processed, 0 failed, and no embedding request or store insert. -/
theorem empty_directory_run (deps : Deps) (entries : List PyFile)
    (h : ∀ f ∈ entries, f.suffix ∉ supported_extensions) :
    process_directory deps entries = (0, 0, ([] : List Event)) := by
  unfold process_directory
  rw [collectFiles_nil h]
  rfl

/-- Witness for empty_directory_run on a directory with one .exe file. -/
theorem empty_directory_run_witness :
    (∀ f ∈ [exeFile], f.suffix ∉ supported_extensions) ∧
      process_directory deps0 [exeFile] = (0, 0, ([] : List Event)) := by
  have h : ∀ f ∈ [exeFile], f.suffix ∉ supported_extensions := by decide
  exact ⟨h, empty_directory_run deps0 [exeFile] h⟩

end Ingest

